import Mathlib

set_option maxHeartbeats 1000000

/-!
Shallow embedding of the parcel resolution pipeline implemented by the
QGIS processing algorithm DatiCatastaliAlgorithm in
download_list_ple_x_attributo_wfs_AdE.py.

Strings are modelled as lists of characters.  The remote datasets are
modelled as in-memory tables (lists of rows); the SQL operators used by the
queries (LIKE, ILIKE, SUBSTR) are embedded as executable functions.  The WFS
service, the coordinate transform and the output sink are oracles passed as
function arguments.
-/

/-- Python str.split for a single-character separator: splits at every
occurrence of the separator and keeps empty segments, so the result is
always nonempty. -/
def pySplit : List Char → Char → List (List Char)
  | [], _ => [[]]
  | c :: rest, sep =>
    match pySplit rest sep with
    | [] => [[]]
    | t :: ts => if c = sep then [] :: t :: ts else (c :: t) :: ts

/-- Interleave a separator character between a list of segments, the inverse
of pySplit on separator-free segments. -/
def joinSep (sep : Char) : List (List Char) → List Char
  | [] => []
  | [t] => t
  | t :: ts => t ++ sep :: joinSep sep ts

/-- ASCII whitespace as stripped by Python int. -/
def isSpaceC (c : Char) : Bool :=
  c = ' ' || c = '\t' || c = '\n' || c = '\r' || c = '\x0b' || c = '\x0c'

/-- Strip whitespace from both ends. -/
def stripWS (l : List Char) : List Char :=
  ((l.dropWhile isSpaceC).reverse.dropWhile isSpaceC).reverse

/-- Numeric value of an ASCII digit character. -/
def digitVal (c : Char) : Nat := c.toNat - 48

/-- Digit run of a Python integer literal after the optional sign: a
nonempty run of decimal digits in which single underscores may separate two
digits. -/
def pyDigitsRest (acc : Nat) : List Char → Option Nat
  | [] => some acc
  | c :: cs =>
    if c.isDigit then pyDigitsRest (acc * 10 + digitVal c) cs
    else if c = '_' then
      match cs with
      | [] => none
      | c2 :: cs2 =>
        if c2.isDigit then pyDigitsRest (acc * 10 + digitVal c2) cs2 else none
    else none

/-- Value of a nonempty digit run, the first character of which must be a
digit. -/
def pyDigits : List Char → Option Nat
  | [] => none
  | c :: cs => if c.isDigit then pyDigitsRest (digitVal c) cs else none

/-- Python int applied to a string: strip whitespace, optional sign, then a
nonempty digit run; none models the ValueError raised on anything else. -/
def pyInt (s : List Char) : Option Int :=
  let t := stripWS s
  if t.headD ' ' = '+' then (pyDigits (t.drop 1)).map (fun n => (n : Int))
  else if t.headD ' ' = '-' then (pyDigits (t.drop 1)).map (fun n => -(n : Int))
  else (pyDigits t).map (fun n => (n : Int))

/-- ASCII digit character of a value below ten. -/
def digitChar (n : Nat) : Char := Char.ofNat (48 + n)

/-- Decimal digits of a natural number, with explicit fuel so that the
definition reduces by computation. -/
def natCharsAux : Nat → Nat → List Char
  | 0, _ => []
  | fuel + 1, n =>
    if n < 10 then [digitChar n]
    else natCharsAux fuel (n / 10) ++ [digitChar (n % 10)]

/-- Decimal rendering of a natural number. -/
def natChars (n : Nat) : List Char := natCharsAux (n + 1) n

/-- Python str applied to an integer. -/
def intChars (i : Int) : List Char :=
  if i < 0 then '-' :: natChars i.natAbs else natChars i.toNat

/-- Python range from s to e inclusive, that is range with upper bound e+1:
the ascending integers from s to e, empty when s exceeds e. -/
def pyRangeIncl (s e : Int) : List Int :=
  (List.range (e + 1 - s).toNat).map (fun i => s + (i : Int))

/-- Range handling of parse_particelle_input for one token containing a
dash: split on the dash, convert exactly two pieces with Python int and
expand the inclusive range; anything else raises ValueError, which the
source turns into a warning carrying the token and an empty expansion. -/
def expandRange (part : List Char) : List (List Char) × List (List Char) :=
  match pySplit part '-' with
  | [a, b] =>
    match pyInt a, pyInt b with
    | some s, some e => ((pyRangeIncl s e).map intChars, [])
    | _, _ => ([], [part])
  | _ => ([], [part])

/-- Body of the comma loop of parse_particelle_input: a token containing a
dash is expanded as a range, any other token is appended literally. -/
def processPart (part : List Char) : List (List Char) × List (List Char) :=
  if '-' ∈ part then expandRange part else ([part], [])

/-- parse_particelle_input from the source: remove blanks, then either split
on commas and process every token, expand a single range, or return the
whole input as one literal parcel id.  The second component collects the
warnings, identified by the offending token. -/
def parse_particelle_input (s : List Char) : List (List Char) × List (List Char) :=
  let t := s.filter (fun c => c != ' ')
  if ',' ∈ t then
    (pySplit t ',').foldr
      (fun p acc => ((processPart p).1 ++ acc.1, (processPart p).2 ++ acc.2))
      ([], [])
  else if '-' ∈ t then expandRange t
  else ([t], [])

/-- Fixed-offset decomposition of NATIONALCADASTRALREFERENCE performed in
get_particella_wfs: split on the dot, slice the first block into admin,
section and sheet with guarded slices, take the last block as the parcel. -/
def decomposeRef (ref : List Char) : List Char × List Char × List Char × List Char :=
  let parts := pySplit ref '.'
  let p0 := parts.headD []
  (if 4 ≤ p0.length then p0.take 4 else [],
   if 5 ≤ p0.length then (p0.drop 4).take 1 else [],
   if 9 ≤ p0.length then (p0.drop 5).take 4 else [],
   if 1 < parts.length then parts.getLastD [] else [])

/-- SQL LIKE matching with percent and underscore wildcards, driven by fuel
so that the definition reduces by computation; the wrapper below supplies
enough fuel for any match. -/
def likeMatchF : Nat → List Char → List Char → Bool
  | 0, _, _ => false
  | fuel + 1, s, p =>
    match p with
    | [] => s.isEmpty
    | pc :: p2 =>
      if pc = '%' then
        likeMatchF fuel s p2 ||
          (match s with
           | [] => false
           | _ :: s2 => likeMatchF fuel s2 (pc :: p2))
      else
        match s with
        | [] => false
        | c :: s2 => (pc == '_' || pc == c) && likeMatchF fuel s2 p2

/-- SQL LIKE: does the string match the pattern. -/
def likeMatch (s p : List Char) : Bool :=
  likeMatchF (s.length + p.length + 1) s p

/-- Does the first list start with the second one. -/
def startsWithL : List Char → List Char → Bool
  | _, [] => true
  | [], _ :: _ => false
  | c :: s, d :: t => c == d && startsWithL s t

/-- Substring containment: some suffix of the first list starts with the
second one. -/
def containsSub : List Char → List Char → Bool
  | [], needle => needle.isEmpty
  | c :: h, needle => startsWithL (c :: h) needle || containsSub h needle

/-- ASCII lowercasing of one character. -/
def lowerCh (c : Char) : Char :=
  if 'A' ≤ c && c ≤ 'Z' then Char.ofNat (c.toNat + 32) else c

/-- ASCII lowercasing of a string. -/
def lowerStr (s : List Char) : List Char := s.map lowerCh

/-- SQL ILIKE: case-insensitive LIKE, lowercasing both operands. -/
def ilikeMatch (s p : List Char) : Bool :=
  likeMatch (lowerStr s) (lowerStr p)

/-- One row of the per-municipality coordinate dataset, with the columns
used by get_coordinates; x and y are the raw scaled integers. -/
structure CoordRow where
  x : Int
  y : Int
  comune : List Char
  foglio : List Char
  particella : List Char
  INSPIREID_LOCALID : List Char
deriving DecidableEq

/-- Truthiness test performed by the source on the optional section
argument: nonempty and not only blanks. -/
def sezioneGiven (sez : List Char) : Bool :=
  !sez.isEmpty && !(stripWS sez).isEmpty

/-- SQL SUBSTR with one-based start 16 and length 1: the character at
zero-based offset 15, empty on shorter strings. -/
def substr16 (s : List Char) : List Char := (s.drop 15).take 1

/-- WHERE clause of the coordinate query of get_coordinates: exact comune,
LIKE on foglio and particella and, when a section is given, equality of the
sixteenth character of INSPIREID_LOCALID with the section. -/
def rowMatches (com fog par sez : List Char) (r : CoordRow) : Bool :=
  r.comune == com && likeMatch r.foglio fog && likeMatch r.particella par &&
    (!sezioneGiven sez || substr16 r.INSPIREID_LOCALID == sez)

/-- get_coordinates from the source: filter the dataset with the query
above, scale the coordinates of every matching row by ten to the minus six
in source order, and return none when nothing matches. -/
def get_coordinates (tbl : List CoordRow) (com fog par sez : List Char) :
    Option (List (ℚ × ℚ)) :=
  let result := tbl.filter (rowMatches com fog par sez)
  if result.isEmpty then none
  else some (result.map (fun r => ((r.x : ℚ) / 1000000, (r.y : ℚ) / 1000000)))

/-- The locate operation as described by the amended claim C2: keep, in
dataset order, exactly the rows carrying the requested comune, whose foglio
and particella match the sheet and parcel as SQL LIKE patterns and, when a
section is given, whose identifier column has the section character at
offset 15; decode every kept row by dividing its raw coordinates by one
million; no rows gives none. -/
def specRowKeep (com fog par sez : List Char) (r : CoordRow) : Option (ℚ × ℚ) :=
  if r.comune = com ∧ likeMatch r.foglio fog = true ∧
      likeMatch r.particella par = true ∧
      (sezioneGiven sez = true → substr16 r.INSPIREID_LOCALID = sez)
  then some ((r.x : ℚ) / 1000000, (r.y : ℚ) / 1000000)
  else none

/-- Sequence of decoded seed coordinates described by the amended claim C2. -/
def specLocate (tbl : List CoordRow) (com fog par sez : List Char) :
    Option (List (ℚ × ℚ)) :=
  match tbl.filterMap (specRowKeep com fog par sez) with
  | [] => none
  | l => some l

/-- One row of the municipality index dataset. -/
structure IndexRow where
  file : List Char
  comune : List Char
  denominazione_it : List Char
deriving DecidableEq

/-- WHERE clause of the index query of get_parquet_file: exact code match or
ILIKE of the name against the query wrapped in percent wildcards. -/
def idxMatches (q : List Char) (r : IndexRow) : Bool :=
  r.comune == q || ilikeMatch r.denominazione_it ('%' :: (q ++ ['%']))

/-- get_parquet_file from the source: zero matching rows give (none, false),
more than one give (none, true) together with the surfaced candidate list of
code and name pairs, exactly one returns its dataset file name. -/
def get_parquet_file (idx : List IndexRow) (q : List Char) :
    (Option (List Char) × Bool) × List (List Char × List Char) :=
  match idx.filter (idxMatches q) with
  | [] => ((none, false), [])
  | [r] => ((some r.file, false), [])
  | rs => ((none, true), rs.map (fun r => (r.comune, r.denominazione_it)))

/-- Fragment of processAlgorithm that consumes get_parquet_file: the run
proceeds to parcel parsing and coordinate lookup only when a dataset file
name was returned, and returns early otherwise. -/
def callerProceeds (res : Option (List Char) × Bool) : Bool := res.1.isSome

/-- One candidate feature returned by the WFS service: its national
cadastral reference, whether its geometry passes the validity check, and an
identifier standing for the geometry object. -/
structure Candidate where
  ref : List Char
  geomValid : Bool
  geomId : Nat
deriving DecidableEq

/-- Outcome of the coordinate transform applied to one geometry: a return
code (zero meaning success) together with the projected area, or a raised
exception. -/
inductive XformRes where
  | transformed (retCode : Int) (area : ℚ)
  | exn
deriving DecidableEq

/-- Did the reprojection of one geometry fail: nonzero return code or a
raised exception. -/
def xformFailed (xr : XformRes) : Bool :=
  match xr with
  | .transformed rc _ => rc != 0
  | .exn => true

/-- Log messages emitted by the candidate loop of get_particella_wfs. -/
inductive Msg where
  | infoAlreadyPresent (ref : List Char)
  | warnInvalidGeom (ref : List Char)
  | warnTransform (ref : List Char)
  | warnAddFailed (ref : List Char)
deriving DecidableEq

/-- One feature as handed to the output sink: the composite reference, its
fixed-offset decomposition, the computed area and the geometry identifier. -/
structure OutFeature where
  ref : List Char
  admin : List Char
  sezione : List Char
  foglio : List Char
  particella : List Char
  area : ℚ
  geomId : Nat
deriving DecidableEq

/-- State threaded through the candidate loop of get_particella_wfs. -/
structure FetchSt where
  existing : List (List Char)
  added : List OutFeature
  lastGeom : Option Nat
  msgs : List Msg
deriving DecidableEq

/-- Loop body of get_particella_wfs for one candidate feature: skip when the
reference is already present or the geometry is invalid, otherwise compute
the area (zero, with a warning, when the reprojection fails), decompose the
reference and hand the feature to the sink; a sink refusal is one more
warning. -/
def processFeat (xform : Nat → XformRes) (sinkOk : List Char → Bool)
    (st : FetchSt) (feat : Candidate) : FetchSt :=
  if feat.ref ∈ st.existing then
    { st with msgs := st.msgs ++ [.infoAlreadyPresent feat.ref] }
  else if !feat.geomValid then
    { st with msgs := st.msgs ++ [.warnInvalidGeom feat.ref] }
  else
    let xr := xform feat.geomId
    let ar : ℚ :=
      match xr with
      | .transformed rc a => if rc == 0 then a else 0
      | .exn => 0
    let warns : List Msg :=
      if xformFailed xr then [.warnTransform feat.ref] else []
    let d := decomposeRef feat.ref
    let nf : OutFeature :=
      ⟨feat.ref, d.1, d.2.1, d.2.2.1, d.2.2.2, ar, feat.geomId⟩
    if sinkOk feat.ref then
      { existing := st.existing ++ [feat.ref],
        added := st.added ++ [nf],
        lastGeom := some feat.geomId,
        msgs := st.msgs ++ warns }
    else
      { st with msgs := st.msgs ++ warns ++ [.warnAddFailed feat.ref] }

/-- Result of one get_particella_wfs call. -/
structure FetchRes where
  success : Bool
  lastGeom : Option Nat
  added : List OutFeature
  msgs : List Msg
deriving DecidableEq

/-- get_particella_wfs from the source: when the WFS layer is valid, run the
candidate loop from the given preexisting reference set and report success
together with the last added geometry; an invalid layer is a failed call
with nothing added. -/
def get_particella_wfs (layerValid : Bool) (feats : List Candidate)
    (existing0 : List (List Char)) (xform : Nat → XformRes)
    (sinkOk : List Char → Bool) : FetchRes :=
  if layerValid then
    let st := feats.foldl (processFeat xform sinkOk) ⟨existing0, [], none, []⟩
    ⟨true, st.lastGeom, st.added, st.msgs⟩
  else ⟨false, none, [], []⟩

/-- External collaborators of one run: the coordinate dataset lookup, the
validity of the WFS layer built for a seed, the features the service returns
around a seed, the coordinate transform and the sink acceptance. -/
structure RunOracle where
  coords : List Char → Option (List (ℚ × ℚ))
  layerValid : ℚ × ℚ → Bool
  svc : ℚ × ℚ → List Candidate
  xform : Nat → XformRes
  sinkOk : List Char → Bool

/-- Preexisting references visible to one fetch call: taken from the current
layer contents when appending to an existing layer, empty when writing to a
fresh sink, because the source rebuilds existing_refs from input_layer at
every call. -/
def existingFor (hasInputLayer : Bool) (sink : List OutFeature) : List (List Char) :=
  if hasInputLayer then sink.map (fun f => f.ref) else []

/-- One fetch call of the run at one seed coordinate. -/
def fetchAt (orc : RunOracle) (hasInputLayer : Bool) (sink : List OutFeature)
    (c : ℚ × ℚ) : FetchRes :=
  get_particella_wfs (orc.layerValid c) (orc.svc c)
    (existingFor hasInputLayer sink) orc.xform orc.sinkOk

/-- Seed loop of processAlgorithm for one parcel id: every coordinate is
fetched in order, the sink accumulating across the calls; the per-seed
results are kept for the found test. -/
def seedRun (orc : RunOracle) (hasInputLayer : Bool) (sink : List OutFeature) :
    List (ℚ × ℚ) → List FetchRes × List OutFeature
  | [] => ([], sink)
  | c :: cs =>
    let r := fetchAt orc hasInputLayer sink c
    let rest := seedRun orc hasInputLayer (sink ++ r.added) cs
    (r :: rest.1, rest.2)

/-- One iteration of the parcel loop: a parcel id with no seed coordinates
is not found; otherwise it is found exactly when some seed fetch succeeded
with a last geometry. -/
def idStep (orc : RunOracle) (hasInputLayer : Bool) (sink : List OutFeature)
    (pid : List Char) : Bool × List OutFeature :=
  match orc.coords pid with
  | none => (false, sink)
  | some cs =>
    if cs.isEmpty then (false, sink)
    else
      let r := seedRun orc hasInputLayer sink cs
      (r.1.any (fun fr => fr.success && fr.lastGeom.isSome), r.2)

/-- Aggregation loop of processAlgorithm: cooperative cancellation checked
once per parcel id, a found counter and the ordered not-found list, plus the
final sink contents. -/
def runAgg (orc : RunOracle) (hasInputLayer : Bool) (cancel : Nat → Bool) :
    Nat → List OutFeature → List (List Char) →
    Nat × List (List Char) × List OutFeature
  | _, sink, [] => (0, [], sink)
  | i, sink, pid :: rest =>
    if cancel i then (0, [], sink)
    else
      let st := idStep orc hasInputLayer sink pid
      let r := runAgg orc hasInputLayer cancel (i + 1) st.2 rest
      (if st.1 then r.1 + 1 else r.1,
       if st.1 then r.2.1 else pid :: r.2.1,
       r.2.2)

/-- Per-parcel found flags of a run, in request order. -/
def foundTrace (orc : RunOracle) (hasInputLayer : Bool) :
    List OutFeature → List (List Char) → List Bool
  | _, [] => []
  | sink, pid :: rest =>
    let st := idStep orc hasInputLayer sink pid
    st.1 :: foundTrace orc hasInputLayer st.2 rest

/-- Value of a string of decimal digits. -/
def digitsVal (l : List Char) : Nat :=
  l.foldl (fun a c => a * 10 + digitVal c) 0

theorem pySplit_ne_nil (s : List Char) (sep : Char) : pySplit s sep ≠ [] := by
  cases s with
  | nil => simp [pySplit]
  | cons c rest =>
    simp only [pySplit]
    cases pySplit rest sep with
    | nil => simp
    | cons t ts =>
      dsimp only
      split <;> simp

theorem pySplit_no_sep (t : List Char) (sep : Char) (h : sep ∉ t) :
    pySplit t sep = [t] := by
  induction t with
  | nil => rfl
  | cons c rest ih =>
    have hc : c ≠ sep := by
      rintro rfl
      exact h (List.mem_cons_self _ _)
    have hr : sep ∉ rest := fun hm => h (List.mem_cons_of_mem _ hm)
    simp only [pySplit, ih hr]
    simp [hc]

theorem pySplit_append_sep (t r : List Char) (sep : Char) (h : sep ∉ t) :
    pySplit (t ++ sep :: r) sep = t :: pySplit r sep := by
  induction t with
  | nil =>
    simp only [List.nil_append, pySplit]
    cases hps : pySplit r sep with
    | nil => exact absurd hps (pySplit_ne_nil r sep)
    | cons a as => simp
  | cons c rest ih =>
    have hc : c ≠ sep := by
      rintro rfl
      exact h (List.mem_cons_self _ _)
    have hr : sep ∉ rest := fun hm => h (List.mem_cons_of_mem _ hm)
    simp only [List.cons_append, pySplit, List.append_eq]
    rw [ih hr]
    simp [hc]

theorem pySplit_joinSep (sep : Char) (ts : List (List Char)) (h1 : ts ≠ [])
    (h2 : ∀ t ∈ ts, sep ∉ t) : pySplit (joinSep sep ts) sep = ts := by
  induction ts with
  | nil => exact absurd rfl h1
  | cons t rest ih =>
    cases rest with
    | nil => simpa [joinSep] using pySplit_no_sep t sep (h2 t (by simp))
    | cons u us =>
      have hj : joinSep sep (t :: u :: us) = t ++ sep :: joinSep sep (u :: us) := rfl
      rw [hj, pySplit_append_sep _ _ _ (h2 t (by simp)),
        ih (by simp) (fun x hx => h2 x (List.mem_cons_of_mem _ hx))]

theorem pySplit_headD (r : List Char) (sep : Char) :
    (pySplit r sep).headD [] = r.takeWhile (fun c => c != sep) := by
  induction r with
  | nil => rfl
  | cons c rest ih =>
    simp only [pySplit]
    cases hps : pySplit rest sep with
    | nil => exact absurd hps (pySplit_ne_nil rest sep)
    | cons t ts =>
      rw [hps] at ih
      by_cases hc : c = sep
      · subst hc
        simp [List.takeWhile_cons]
      · simp [hc, List.takeWhile_cons]
        simpa using ih

theorem one_lt_pySplit_length (r : List Char) (sep : Char) :
    1 < (pySplit r sep).length ↔ sep ∈ r := by
  induction r with
  | nil => simp [pySplit]
  | cons c rest ih =>
    simp only [pySplit]
    cases hps : pySplit rest sep with
    | nil => exact absurd hps (pySplit_ne_nil rest sep)
    | cons t ts =>
      rw [hps] at ih
      by_cases hc : c = sep
      · subst hc
        simp [List.mem_cons]
      · simp only [hc, if_false, List.length_cons, List.mem_cons]
        simp only [List.length_cons] at ih
        constructor
        · intro hl
          exact Or.inr (ih.1 hl)
        · intro hm
          rcases hm with hm | hm
          · exact absurd hm.symm hc
          · exact ih.2 hm

theorem getLastD_of_ne_nil (l : List α) (a b : α) (h : l ≠ []) :
    l.getLastD a = l.getLastD b := by
  rw [List.getLastD_eq_getLast?, List.getLastD_eq_getLast?]
  cases hl : l.getLast? with
  | none => exact absurd (List.getLast?_eq_none_iff.1 hl) h
  | some x => rfl

theorem pySplit_getLastD_cons (c : Char) (rest : List Char) (sep : Char)
    (h : sep ∈ rest) :
    (pySplit (c :: rest) sep).getLastD [] = (pySplit rest sep).getLastD [] := by
  simp only [pySplit]
  cases hps : pySplit rest sep with
  | nil => exact absurd hps (pySplit_ne_nil rest sep)
  | cons t ts =>
    have hts : ts ≠ [] := by
      have hlen := (one_lt_pySplit_length rest sep).2 h
      rw [hps] at hlen
      cases ts with
      | nil => simp at hlen
      | cons u us => simp
    by_cases hc : c = sep
    · subst hc
      simp [List.getLastD_cons]
    · simp only [hc, if_false, List.getLastD_cons]
      exact getLastD_of_ne_nil ts _ _ hts

theorem pySplit_getLastD_split (r : List Char) (sep : Char) (h : sep ∈ r) :
    ∃ pre, r = pre ++ sep :: (pySplit r sep).getLastD [] ∧
      sep ∉ (pySplit r sep).getLastD [] := by
  induction r with
  | nil => simp at h
  | cons c rest ih =>
    by_cases hr : sep ∈ rest
    · obtain ⟨pre, hpre, hns⟩ := ih hr
      rw [pySplit_getLastD_cons c rest sep hr]
      refine ⟨c :: pre, ?_, hns⟩
      rw [List.cons_append, ← hpre]
    · have hc : c = sep := by
        rcases List.mem_cons.1 h with h1 | h1
        · exact h1.symm
        · exact absurd h1 hr
      subst hc
      simp only [pySplit, pySplit_no_sep rest c hr]
      simp [List.getLastD_cons, hr]

theorem parse_flatMap (s : List Char) :
    (parse_particelle_input s).1 =
      (pySplit (s.filter (fun c => c != ' ')) ',').flatMap
        (fun p => (processPart p).1) := by
  unfold parse_particelle_input
  by_cases hc : ',' ∈ s.filter (fun c => c != ' ')
  · simp only [hc, if_true]
    generalize pySplit (s.filter (fun c => c != ' ')) ',' = parts
    induction parts with
    | nil => rfl
    | cons p ps ih => simp [ih]
  · simp only [hc, if_false]
    rw [pySplit_no_sep _ ',' hc]
    by_cases hd : '-' ∈ s.filter (fun c => c != ' ')
    · simp [hd, processPart]
    · simp [hd, processPart]

theorem digit_ne_special (c : Char) (h : c.isDigit = true) :
    c ≠ '-' ∧ c ≠ ',' ∧ c ≠ ' ' ∧ c ≠ '+' ∧ c ≠ '_' ∧ c ≠ '.' ∧ isSpaceC c = false := by
  refine ⟨?_, ?_, ?_, ?_, ?_, ?_, ?_⟩
  · rintro rfl; exact absurd h (by decide)
  · rintro rfl; exact absurd h (by decide)
  · rintro rfl; exact absurd h (by decide)
  · rintro rfl; exact absurd h (by decide)
  · rintro rfl; exact absurd h (by decide)
  · rintro rfl; exact absurd h (by decide)
  · have hb : 48 ≤ c.toNat ∧ c.toNat ≤ 57 := by
      simp [Char.isDigit, Char.le_def, Char.toNat] at h
      exact h
    cases hsp : isSpaceC c with
    | false => rfl
    | true =>
      exfalso
      simp only [isSpaceC] at hsp
      simp only [Bool.or_eq_true, decide_eq_true_eq] at hsp
      rcases hsp with ((((h1 | h1) | h1) | h1) | h1) | h1 <;>
        (subst h1; revert hb; decide)

theorem pyDigitsRest_all_digits (l : List Char) :
    ∀ acc, (∀ c ∈ l, c.isDigit = true) →
      pyDigitsRest acc l = some (l.foldl (fun a c => a * 10 + digitVal c) acc) := by
  induction l with
  | nil => intro acc _; rfl
  | cons c cs ih =>
    intro acc h
    have hc : c.isDigit = true := h c (by simp)
    rw [pyDigitsRest.eq_def]
    simp only [hc, if_true, List.foldl_cons]
    exact ih _ (fun x hx => h x (List.mem_cons_of_mem _ hx))

theorem pyInt_all_digits (l : List Char) (h0 : l ≠ [])
    (h : ∀ c ∈ l, c.isDigit = true) : pyInt l = some ((digitsVal l : Nat) : Int) := by
  have hstrip : stripWS l = l := by
    have hd : ∀ (m : List Char), (∀ c ∈ m, c.isDigit = true) →
        m.dropWhile isSpaceC = m := by
      intro m hm
      cases m with
      | nil => rfl
      | cons d ds =>
        have := (digit_ne_special d (hm d (by simp))).2.2.2.2.2.2
        simp [List.dropWhile_cons, this]
    unfold stripWS
    rw [hd l h]
    rw [hd l.reverse (fun x hx => h x (List.mem_reverse.1 hx))]
    exact List.reverse_reverse l
  cases l with
  | nil => exact absurd rfl h0
  | cons c cs =>
    have hc : c.isDigit = true := h c (by simp)
    have hne := digit_ne_special c hc
    unfold pyInt
    simp only [hstrip, List.headD_cons]
    rw [if_neg hne.2.2.2.1, if_neg hne.1]
    simp only [pyDigits, hc, if_true]
    rw [pyDigitsRest_all_digits cs _ (fun x hx => h x (List.mem_cons_of_mem _ hx))]
    simp [digitsVal]

theorem expandRange_digits (a b : List Char) (ha0 : a ≠ []) (hb0 : b ≠ [])
    (ha : ∀ c ∈ a, c.isDigit = true) (hb : ∀ c ∈ b, c.isDigit = true) :
    expandRange (a ++ '-' :: b) =
      ((pyRangeIncl (digitsVal a) (digitsVal b)).map intChars, []) := by
  have hna : '-' ∉ a := fun hm => absurd (ha '-' hm) (by decide)
  have hnb : '-' ∉ b := fun hm => absurd (hb '-' hm) (by decide)
  unfold expandRange
  rw [pySplit_append_sep a b '-' hna, pySplit_no_sep b '-' hnb]
  dsimp only
  rw [pyInt_all_digits a ha0 ha, pyInt_all_digits b hb0 hb]

theorem mem_joinSep (sep : Char) (ts : List (List Char)) (c : Char)
    (h : c ∈ joinSep sep ts) : c = sep ∨ ∃ t ∈ ts, c ∈ t := by
  induction ts with
  | nil => simp [joinSep] at h
  | cons t rest ih =>
    cases rest with
    | nil => exact Or.inr ⟨t, by simp, by simpa [joinSep] using h⟩
    | cons u us =>
      rw [show joinSep sep (t :: u :: us) = t ++ sep :: joinSep sep (u :: us)
        from rfl] at h
      rcases List.mem_append.1 h with h1 | h1
      · exact Or.inr ⟨t, by simp, h1⟩
      · rcases List.mem_cons.1 h1 with h2 | h2
        · exact Or.inl h2
        · rcases ih h2 with h3 | ⟨t2, ht2, hc2⟩
          · exact Or.inl h3
          · exact Or.inr ⟨t2, List.mem_cons_of_mem _ ht2, hc2⟩

/-- C3: parse of the spec examples: the combined list and range input
expands to exactly the thirteen listed ids and the plain range input to the
seven ascending ids; in general tokens are kept in input order with every
token expanded in place, and a well-formed ascending range token expands to
the inclusive ascending integer sequence rendered as strings. -/
theorem claim_C3_parse_examples :
    (parse_particelle_input
        ['1',',','3',',','5','-','8',',','1','0',',','1','5','-','2','0']).1 =
      [['1'],['3'],['5'],['6'],['7'],['8'],['1','0'],['1','5'],['1','6'],
       ['1','7'],['1','8'],['1','9'],['2','0']] ∧
    (parse_particelle_input ['1','-','7']).1 =
      [['1'],['2'],['3'],['4'],['5'],['6'],['7']] ∧
    (∀ s : List Char, (parse_particelle_input s).1 =
      (pySplit (s.filter (fun c => c != ' ')) ',').flatMap
        (fun p => (processPart p).1)) ∧
    (∀ a b : List Char, a ≠ [] → b ≠ [] →
      (∀ c ∈ a, c.isDigit = true) → (∀ c ∈ b, c.isDigit = true) →
      digitsVal a ≤ digitsVal b →
      (processPart (a ++ '-' :: b)).1 =
        (pyRangeIncl (digitsVal a) (digitsVal b)).map intChars) := by
  refine ⟨by decide, by decide, parse_flatMap, ?_⟩
  intro a b ha0 hb0 ha hb _
  unfold processPart
  rw [if_pos (by simp : '-' ∈ a ++ '-' :: b)]
  rw [expandRange_digits a b ha0 hb0 ha hb]

theorem claim_C3_witness :
    (processPart ['5','-','8']).1 = [['5'],['6'],['7'],['8']] := by
  have h := claim_C3_parse_examples.2.2.2 ['5'] ['8'] (by decide) (by decide)
    (by decide) (by decide) (by decide)
  exact h.trans (by decide)

/-- C7: a range token with both sides parsing as integers and start greater
than end expands to the empty sequence, with no warning and no error, and
parsing of the remaining comma-separated tokens continues unaffected. -/
theorem claim_C7_descending_range (a b : List Char) (ha0 : a ≠ []) (hb0 : b ≠ [])
    (ha : ∀ c ∈ a, c.isDigit = true) (hb : ∀ c ∈ b, c.isDigit = true)
    (hlt : digitsVal b < digitsVal a) :
    processPart (a ++ '-' :: b) = ([], []) ∧
    (∀ pre post : List (List Char),
      (∀ t ∈ pre ++ post, ',' ∉ t ∧ ' ' ∉ t) →
      (parse_particelle_input
          (joinSep ',' (pre ++ (a ++ '-' :: b) :: post))).1 =
        (pre ++ post).flatMap (fun p => (processPart p).1)) := by
  have hpp : processPart (a ++ '-' :: b) = ([], []) := by
    unfold processPart
    rw [if_pos (by simp : '-' ∈ a ++ '-' :: b)]
    rw [expandRange_digits a b ha0 hb0 ha hb]
    have hz : (((digitsVal b : Int)) + 1 - ((digitsVal a : Int))).toNat = 0 := by
      omega
    simp [pyRangeIncl, hz]
  refine ⟨hpp, ?_⟩
  intro pre post hts
  have hmid : ∀ c ∈ a ++ '-' :: b, c ≠ ',' ∧ c ≠ ' ' := by
    intro c hc
    rcases List.mem_append.1 hc with h1 | h1
    · have := digit_ne_special c (ha c h1)
      exact ⟨this.2.1, this.2.2.1⟩
    · rcases List.mem_cons.1 h1 with h2 | h2
      · subst h2; exact ⟨by decide, by decide⟩
      · have := digit_ne_special c (hb c h2)
        exact ⟨this.2.1, this.2.2.1⟩
  have htok : ∀ t ∈ pre ++ (a ++ '-' :: b) :: post, ',' ∉ t := by
    intro t ht
    rcases List.mem_append.1 ht with h1 | h1
    · exact (hts t (List.mem_append.2 (Or.inl h1))).1
    · rcases List.mem_cons.1 h1 with h2 | h2
      · subst h2
        intro hc
        exact (hmid ',' hc).1 rfl
      · exact (hts t (List.mem_append.2 (Or.inr h2))).1
  have hsp : (joinSep ',' (pre ++ (a ++ '-' :: b) :: post)).filter
      (fun c => c != ' ') = joinSep ',' (pre ++ (a ++ '-' :: b) :: post) := by
    apply List.filter_eq_self.2
    intro c hc
    simp only [bne_iff_ne, ne_eq]
    rcases mem_joinSep ',' _ c hc with h1 | ⟨t, ht, hct⟩
    · subst h1; decide
    · rcases List.mem_append.1 ht with h2 | h2
      · intro hce; subst hce
        exact (hts t (List.mem_append.2 (Or.inl h2))).2 hct
      · rcases List.mem_cons.1 h2 with h3 | h3
        · subst h3
          exact (hmid c hct).2
        · intro hce; subst hce
          exact (hts t (List.mem_append.2 (Or.inr h3))).2 hct
  rw [parse_flatMap, hsp, pySplit_joinSep ',' _ (by simp) htok]
  simp [hpp]

theorem claim_C7_witness :
    (parse_particelle_input ['1',',','9','-','3',',','2']).1 = [['1'],['2']] := by
  have h := (claim_C7_descending_range ['9'] ['3'] (by decide) (by decide)
      (by decide) (by decide) (by decide)).2 [['1']] [['2']] (by decide)
  exact h.trans (by decide)

/-- C10: an input containing, after blank removal, no comma and no dash is
returned by the parser as the single literal parcel id with no warning, with
no integer validation applied to it; when the input contains no blanks at
all it is returned completely unchanged. -/
theorem claim_C10_literal_passthrough (s : List Char)
    (h1 : ',' ∉ s.filter (fun c => c != ' '))
    (h2 : '-' ∉ s.filter (fun c => c != ' ')) :
    parse_particelle_input s = ([s.filter (fun c => c != ' ')], []) ∧
      (' ' ∉ s → parse_particelle_input s = ([s], [])) := by
  have hmain : parse_particelle_input s = ([s.filter (fun c => c != ' ')], []) := by
    unfold parse_particelle_input
    simp only [h1, h2, if_false]
  refine ⟨hmain, fun hs => ?_⟩
  have hf : s.filter (fun c => c != ' ') = s := by
    apply List.filter_eq_self.2
    intro c hc
    simp only [bne_iff_ne, ne_eq]
    rintro rfl
    exact hs hc
  rw [hf] at hmain
  exact hmain

theorem claim_C10_witness :
    parse_particelle_input ['A','B','C'] = ([['A','B','C']], []) :=
  (claim_C10_literal_passthrough ['A','B','C'] (by decide) (by decide)).2
    (by decide)

/-- C5: decomposition of a national reference: with p0 the segment before
the first dot, admin is its first four characters when it has at least four,
section its fifth character when it has at least five, sheet its sixth to
ninth characters when it has at least nine, each empty otherwise; the parcel
is the segment after the final dot when the reference contains a dot and
empty otherwise; short strings never fail; the reference with first block
M01110023 and trailing segment 45 decomposes to M011, 1, 0023, 45. -/
theorem claim_C5_reference_decomposition (ref : List Char) :
    (decomposeRef ref).1 =
      (if 4 ≤ (ref.takeWhile (fun c => c != '.')).length
       then (ref.takeWhile (fun c => c != '.')).take 4 else []) ∧
    (decomposeRef ref).2.1 =
      (if 5 ≤ (ref.takeWhile (fun c => c != '.')).length
       then ((ref.takeWhile (fun c => c != '.')).drop 4).take 1 else []) ∧
    (decomposeRef ref).2.2.1 =
      (if 9 ≤ (ref.takeWhile (fun c => c != '.')).length
       then ((ref.takeWhile (fun c => c != '.')).drop 5).take 4 else []) ∧
    (if '.' ∈ ref
     then ∃ pre, ref = pre ++ '.' :: (decomposeRef ref).2.2.2 ∧
       '.' ∉ (decomposeRef ref).2.2.2
     else (decomposeRef ref).2.2.2 = []) ∧
    decomposeRef ['M','0','1','1','1','0','0','2','3','.','4','5'] =
      (['M','0','1','1'], ['1'], ['0','0','2','3'], ['4','5']) := by
  have hhead : (pySplit ref '.').headD [] = ref.takeWhile (fun c => c != '.') :=
    pySplit_headD ref '.'
  refine ⟨?_, ?_, ?_, ?_, by decide⟩
  · simp only [decomposeRef]
    rw [hhead]
  · simp only [decomposeRef]
    rw [hhead]
  · simp only [decomposeRef]
    rw [hhead]
  · by_cases hdot : '.' ∈ ref
    · rw [if_pos hdot]
      have hlen : 1 < (pySplit ref '.').length :=
        (one_lt_pySplit_length ref '.').2 hdot
      have hres : (decomposeRef ref).2.2.2 = (pySplit ref '.').getLastD [] := by
        simp only [decomposeRef]
        rw [if_pos hlen]
      rw [hres]
      exact pySplit_getLastD_split ref '.' hdot
    · rw [if_neg hdot]
      have hlen : ¬ 1 < (pySplit ref '.').length := by
        rw [one_lt_pySplit_length ref '.']
        exact hdot
      simp only [decomposeRef]
      rw [if_neg hlen]

theorem likeMatchF_noWild : ∀ (fuel : Nat) (s p : List Char),
    s.length + p.length < fuel → '%' ∉ p → '_' ∉ p →
    (likeMatchF fuel s p = true ↔ s = p) := by
  intro fuel
  induction fuel with
  | zero => intro s p h _ _; omega
  | succ f ih =>
    intro s p hlen hpct hus
    cases p with
    | nil =>
      simp only [likeMatchF]
      cases s <;> simp
    | cons pc p2 =>
      have hpc : pc ≠ '%' := fun h => hpct (h ▸ List.mem_cons_self _ _)
      have hpcu : pc ≠ '_' := fun h => hus (h ▸ List.mem_cons_self _ _)
      simp only [likeMatchF]
      rw [if_neg hpc]
      cases s with
      | nil => simp
      | cons c s2 =>
        have ihr := ih s2 p2 (by simp only [List.length_cons] at hlen; omega)
          (fun hm => hpct (List.mem_cons_of_mem _ hm))
          (fun hm => hus (List.mem_cons_of_mem _ hm))
        simp only [Bool.and_eq_true, Bool.or_eq_true, beq_iff_eq, ihr,
          List.cons_eq_cons]
        constructor
        · rintro ⟨hd | hd, h2⟩
          · exact absurd hd hpcu
          · exact ⟨hd.symm, h2⟩
        · rintro ⟨hd, h2⟩
          exact ⟨Or.inr hd.symm, h2⟩

theorem likeMatchF_pct_end : ∀ (fuel : Nat) (s : List Char),
    s.length + 2 ≤ fuel → likeMatchF fuel s ['%'] = true := by
  intro fuel
  induction fuel with
  | zero => intro s h; omega
  | succ f ih =>
    intro s hlen
    simp only [likeMatchF, if_pos rfl]
    cases s with
    | nil =>
      cases f with
      | zero => simp only [List.length_nil] at hlen; omega
      | succ g => simp [likeMatchF]
    | cons c s2 =>
      have h2 : likeMatchF f s2 ['%'] = true :=
        ih s2 (by simp only [List.length_cons] at hlen; omega)
      simp [h2]

theorem likeMatchF_digits_pct : ∀ (q : List Char) (fuel : Nat) (s : List Char),
    '%' ∉ q → '_' ∉ q → s.length + q.length + 2 ≤ fuel →
    (likeMatchF fuel s (q ++ ['%']) = true ↔ startsWithL s q = true) := by
  intro q
  induction q with
  | nil =>
    intro fuel s _ _ hlen
    simp only [List.nil_append]
    rw [likeMatchF_pct_end fuel s (by omega)]
    simp [startsWithL]
  | cons pc q2 ih =>
    intro fuel s hpct hus hlen
    have hpc : pc ≠ '%' := fun h => hpct (h ▸ List.mem_cons_self _ _)
    have hpcu : pc ≠ '_' := fun h => hus (h ▸ List.mem_cons_self _ _)
    cases fuel with
    | zero => omega
    | succ f =>
      simp only [List.cons_append, likeMatchF]
      rw [if_neg hpc]
      cases s with
      | nil => simp [startsWithL]
      | cons c s2 =>
        have ihr := ih f s2
          (fun hm => hpct (List.mem_cons_of_mem _ hm))
          (fun hm => hus (List.mem_cons_of_mem _ hm))
          (by simp only [List.length_cons] at hlen ⊢; omega)
        simp only [startsWithL, Bool.and_eq_true, Bool.or_eq_true, beq_iff_eq,
          ihr]
        constructor
        · rintro ⟨hd | hd, h2⟩
          · exact absurd hd hpcu
          · exact ⟨hd.symm, h2⟩
        · rintro ⟨hd, h2⟩
          exact ⟨Or.inr hd.symm, h2⟩

theorem likeMatchF_containsSub : ∀ (s : List Char) (fuel : Nat) (q : List Char),
    '%' ∉ q → '_' ∉ q → s.length + q.length + 3 ≤ fuel →
    (likeMatchF fuel s ('%' :: (q ++ ['%'])) = true ↔
      containsSub s q = true) := by
  intro s
  induction s with
  | nil =>
    intro fuel q hpct hus hlen
    cases fuel with
    | zero => omega
    | succ f =>
      simp only [likeMatchF, eq_self_iff_true, if_true, Bool.or_false]
      rw [likeMatchF_digits_pct q f [] hpct hus (by simp at hlen ⊢; omega)]
      cases q with
      | nil => simp [containsSub, startsWithL]
      | cons d q2 => simp [containsSub, startsWithL]
  | cons c s2 ih =>
    intro fuel q hpct hus hlen
    cases fuel with
    | zero => omega
    | succ f =>
      simp only [likeMatchF, eq_self_iff_true, if_true, Bool.or_eq_true]
      rw [likeMatchF_digits_pct q f (c :: s2) hpct hus
        (by simp only [List.length_cons] at hlen ⊢; omega)]
      have ihr := ih f q hpct hus
        (by simp only [List.length_cons] at hlen; omega)
      rw [ihr]
      simp only [containsSub, Bool.or_eq_true]

theorem likeMatch_noWild (s p : List Char) (hpct : '%' ∉ p) (hus : '_' ∉ p) :
    (likeMatch s p = true ↔ s = p) := by
  unfold likeMatch
  exact likeMatchF_noWild _ s p (by omega) hpct hus

theorem lowerCh_ne_special (c : Char) (hc : c ≠ '%') (hu : c ≠ '_') :
    lowerCh c ≠ '%' ∧ lowerCh c ≠ '_' := by
  unfold lowerCh
  split
  · rename_i hAZ
    simp only [Bool.and_eq_true, decide_eq_true_eq] at hAZ
    have h65 : 65 ≤ c.toNat := by
      have h1 := hAZ.1
      simp [Char.le_def, Char.toNat] at h1
      exact h1
    have h90 : c.toNat ≤ 90 := by
      have h1 := hAZ.2
      simp [Char.le_def, Char.toNat] at h1
      exact h1
    constructor
    · exact (by decide : ∀ n, 65 ≤ n → n ≤ 90 → Char.ofNat (n + 32) ≠ '%')
        c.toNat h65 h90
    · exact (by decide : ∀ n, 65 ≤ n → n ≤ 90 → Char.ofNat (n + 32) ≠ '_')
        c.toNat h65 h90
  · exact ⟨hc, hu⟩

theorem lowerStr_noWild (q : List Char) (hpct : '%' ∉ q) (hus : '_' ∉ q) :
    '%' ∉ lowerStr q ∧ '_' ∉ lowerStr q := by
  constructor
  · intro hm
    rcases List.mem_map.1 hm with ⟨c, hc, he⟩
    have hcp : c ≠ '%' := fun h => hpct (h ▸ hc)
    have hcu : c ≠ '_' := fun h => hus (h ▸ hc)
    exact (lowerCh_ne_special c hcp hcu).1 he
  · intro hm
    rcases List.mem_map.1 hm with ⟨c, hc, he⟩
    have hcp : c ≠ '%' := fun h => hpct (h ▸ hc)
    have hcu : c ≠ '_' := fun h => hus (h ▸ hc)
    exact (lowerCh_ne_special c hcp hcu).2 he

theorem ilikeMatch_containsSub (name q : List Char) (hpct : '%' ∉ q)
    (hus : '_' ∉ q) :
    (ilikeMatch name ('%' :: (q ++ ['%'])) = true ↔
      containsSub (lowerStr name) (lowerStr q) = true) := by
  unfold ilikeMatch
  have hl : lowerStr ('%' :: (q ++ ['%'])) = '%' :: (lowerStr q ++ ['%']) := by
    simp [lowerStr, lowerCh]
  rw [hl]
  unfold likeMatch
  obtain ⟨h1, h2⟩ := lowerStr_noWild q hpct hus
  refine likeMatchF_containsSub (lowerStr name) _ (lowerStr q) h1 h2 ?_
  simp only [lowerStr, List.length_map, List.length_cons, List.length_append]
  omega

/-- C2 counterexample: with one dataset row whose particella is 12 and a
call whose parcel argument is the pattern 1 followed by a percent sign, the
code returns a coordinate, because the query uses SQL LIKE, although no row
has particella equal to the parcel argument; the equality reading of the
claim would require an empty result. -/
theorem claim_C2_counterexample :
    (get_coordinates
        [⟨2000000, 3000000, ['C'], ['0','0','0','1'], ['1','2'], []⟩]
        ['C'] ['0','0','0','1'] ['1','%'] []).isSome = true ∧
    ([⟨2000000, 3000000, ['C'], ['0','0','0','1'], ['1','2'], []⟩] :
        List CoordRow).filter
      (fun r => r.comune == ['C'] && r.foglio == ['0','0','0','1'] &&
        r.particella == ['1','%']) = [] := by
  decide

/-- C2 amended: the returned sequence consists of exactly the dataset rows
whose comune equals the code and whose foglio and particella match the
normalized sheet and the parcel as SQL LIKE patterns (with the section
character test at offset 15 when a section is given), each decoded by
dividing the raw coordinates by one million, in dataset order; LIKE
coincides with equality whenever the pattern contains no percent and no
underscore wildcard, which recovers the equality reading of the claim for
wildcard-free arguments; the documented decoding example holds. -/
theorem claim_C2_locate_like (tbl : List CoordRow) (com fog par sez : List Char) :
    get_coordinates tbl com fog par sez = specLocate tbl com fog par sez ∧
    (∀ (s p : List Char), '%' ∉ p → '_' ∉ p →
      (likeMatch s p = true ↔ s = p)) ∧
    ((7250123456 : ℚ) / 1000000 = 7250.123456) := by
  have key : tbl.filterMap (specRowKeep com fog par sez) =
      (tbl.filter (rowMatches com fog par sez)).map
        (fun r => ((r.x : ℚ) / 1000000, (r.y : ℚ) / 1000000)) := by
    induction tbl with
    | nil => rfl
    | cons r rest ih =>
      have hiff : (rowMatches com fog par sez r = true) ↔
          (r.comune = com ∧ likeMatch r.foglio fog = true ∧
           likeMatch r.particella par = true ∧
           (sezioneGiven sez = true → substr16 r.INSPIREID_LOCALID = sez)) := by
        unfold rowMatches
        simp only [Bool.and_eq_true, Bool.or_eq_true, beq_iff_eq,
          Bool.not_eq_true']
        constructor
        · rintro ⟨⟨⟨h1, h2⟩, h3⟩, h4⟩
          refine ⟨h1, h2, h3, fun hg => ?_⟩
          rcases h4 with h4 | h4
          · rw [hg] at h4; cases h4
          · exact h4
        · rintro ⟨h1, h2, h3, h4⟩
          refine ⟨⟨⟨h1, h2⟩, h3⟩, ?_⟩
          cases hg : sezioneGiven sez with
          | false => exact Or.inl rfl
          | true => exact Or.inr (h4 hg)
      rw [List.filterMap_cons, List.filter_cons]
      by_cases hm : rowMatches com fog par sez r = true
      · rw [if_pos hm]
        have hkeep : specRowKeep com fog par sez r =
            some ((r.x : ℚ) / 1000000, (r.y : ℚ) / 1000000) := by
          unfold specRowKeep
          rw [if_pos (hiff.1 hm)]
        rw [hkeep, ih]
        rfl
      · rw [if_neg hm]
        have hkeep : specRowKeep com fog par sez r = none := by
          unfold specRowKeep
          rw [if_neg (fun hp => hm (hiff.2 hp))]
        rw [hkeep, ih]
  refine ⟨?_, fun s p => likeMatch_noWild s p, by norm_num⟩
  unfold get_coordinates specLocate
  rw [key]
  cases htbl : tbl.filter (rowMatches com fog par sez) with
  | nil => simp
  | cons r rs => simp

theorem claim_C2_witness :
    get_coordinates [] ['M','0','1','1'] ['0','0','0','1'] ['1'] [] =
      specLocate [] ['M','0','1','1'] ['0','0','0','1'] ['1'] [] ∧
    likeMatch ['4','5'] ['4','5'] = true :=
  ⟨(claim_C2_locate_like [] ['M','0','1','1'] ['0','0','0','1'] ['1'] []).1,
   ((claim_C2_locate_like [] [] [] [] []).2.1 ['4','5'] ['4','5']
      (by decide) (by decide)).2 rfl⟩

/-- C6 counterexample: with one index row named ALBA and the query A followed
by a percent sign and B, zero rows match under the case-insensitive substring
reading, so the claim requires NotFound, yet the code resolves the row as the
single match because the percent sign acts as an ILIKE wildcard. -/
theorem claim_C6_counterexample :
    get_parquet_file [⟨['f','1'], ['X','1','2','3'], ['A','L','B','A']⟩]
      ['A','%','B'] = ((some ['f','1'], false), []) ∧
    ([⟨['f','1'], ['X','1','2','3'], ['A','L','B','A']⟩] :
        List IndexRow).filter
      (fun r => r.comune == ['A','%','B'] ||
        containsSub (lowerStr r.denominazione_it) (lowerStr ['A','%','B'])) =
      [] := by
  decide

/-- C6 amended: resolution returns the NotFound marker when zero index rows
match (exact code match or case-insensitive ILIKE match of the name against
the query wrapped in percent wildcards), the single record when exactly one
row matches, and the ambiguity marker carrying the candidate code and name
list when more than one matches, in which case the caller does not proceed
to coordinate lookup; the ILIKE test coincides with case-insensitive
substring containment whenever the query contains no percent and no
underscore wildcard, which recovers the substring reading of the claim. -/
theorem claim_C6_resolver (idx : List IndexRow) (q : List Char) :
    (idx.filter (idxMatches q) = [] →
      get_parquet_file idx q = ((none, false), [])) ∧
    (∀ r, idx.filter (idxMatches q) = [r] →
      get_parquet_file idx q = ((some r.file, false), [])) ∧
    (2 ≤ (idx.filter (idxMatches q)).length →
      (get_parquet_file idx q).1 = (none, true) ∧
      (get_parquet_file idx q).2 =
        (idx.filter (idxMatches q)).map
          (fun r => (r.comune, r.denominazione_it)) ∧
      callerProceeds (get_parquet_file idx q).1 = false) ∧
    (∀ r : IndexRow, '%' ∉ q → '_' ∉ q →
      (idxMatches q r = true ↔
        (r.comune = q ∨
          containsSub (lowerStr r.denominazione_it) (lowerStr q) = true))) := by
  refine ⟨?_, ?_, ?_, ?_⟩
  · intro h
    unfold get_parquet_file
    rw [h]
  · intro r h
    unfold get_parquet_file
    rw [h]
  · intro h
    unfold get_parquet_file callerProceeds
    cases hf : idx.filter (idxMatches q) with
    | nil =>
      rw [hf] at h
      simp at h
    | cons r1 rs =>
      cases rs with
      | nil =>
        rw [hf] at h
        simp at h
      | cons r2 rs2 => simp
  · intro r hpct hus
    unfold idxMatches
    rw [Bool.or_eq_true, beq_iff_eq]
    rw [ilikeMatch_containsSub r.denominazione_it q hpct hus]

theorem claim_C6_witness :
    callerProceeds (get_parquet_file
      [⟨['f','1'], ['A','0','0','1'], ['R','O','M','A']⟩,
       ⟨['f','2'], ['B','0','0','2'], ['R','O','M','E']⟩] ['R','O','M']).1 =
      false := by
  have h := (claim_C6_resolver
    [⟨['f','1'], ['A','0','0','1'], ['R','O','M','A']⟩,
     ⟨['f','2'], ['B','0','0','2'], ['R','O','M','E']⟩] ['R','O','M']).2.2.1
    (by decide)
  exact h.2.2

theorem foldl_processFeat_all_existing (xform : Nat → XformRes)
    (sinkOk : List Char → Bool) :
    ∀ (feats : List Candidate) (st : FetchSt),
      (∀ f ∈ feats, f.ref ∈ st.existing) →
      feats.foldl (processFeat xform sinkOk) st =
        { st with msgs :=
            st.msgs ++ feats.map (fun f => .infoAlreadyPresent f.ref) } := by
  intro feats
  induction feats with
  | nil => intro st _; simp
  | cons f fs ih =>
    intro st h
    have hf : f.ref ∈ st.existing := h f (by simp)
    simp only [List.foldl_cons]
    have hstep : processFeat xform sinkOk st f =
        { st with msgs := st.msgs ++ [.infoAlreadyPresent f.ref] } := by
      unfold processFeat
      rw [if_pos hf]
    rw [hstep, ih { st with msgs := st.msgs ++ [Msg.infoAlreadyPresent f.ref] }
      (fun x hx => h x (List.mem_cons_of_mem _ hx))]
    simp

theorem processFeat_lastGeom_iff (xform : Nat → XformRes)
    (sinkOk : List Char → Bool) (st : FetchSt) (f : Candidate)
    (h : st.lastGeom.isSome ↔ st.added ≠ []) :
    ((processFeat xform sinkOk st f).lastGeom.isSome ↔
      (processFeat xform sinkOk st f).added ≠ []) := by
  unfold processFeat
  split
  · simpa using h
  · split
    · simpa using h
    · dsimp only
      split
      · simp
      · simpa using h

theorem foldl_processFeat_lastGeom_iff (xform : Nat → XformRes)
    (sinkOk : List Char → Bool) :
    ∀ (feats : List Candidate) (st : FetchSt),
      (st.lastGeom.isSome ↔ st.added ≠ []) →
      ((feats.foldl (processFeat xform sinkOk) st).lastGeom.isSome ↔
        (feats.foldl (processFeat xform sinkOk) st).added ≠ []) := by
  intro feats
  induction feats with
  | nil => intro st h; simpa using h
  | cons f fs ih =>
    intro st h
    simp only [List.foldl_cons]
    exact ih _ (processFeat_lastGeom_iff xform sinkOk st f h)

theorem get_particella_wfs_lastGeom_iff (lv : Bool) (feats : List Candidate)
    (ex : List (List Char)) (xform : Nat → XformRes)
    (sinkOk : List Char → Bool) :
    ((get_particella_wfs lv feats ex xform sinkOk).lastGeom.isSome ↔
      (get_particella_wfs lv feats ex xform sinkOk).added ≠ []) := by
  unfold get_particella_wfs
  split
  · exact foldl_processFeat_lastGeom_iff xform sinkOk feats ⟨ex, [], none, []⟩
      (by simp)
  · simp

/-- C9: when the preexisting reference set already contains the reference of
every feature the service returns for a seed, the fetch call adds nothing,
stays successful, keeps no last geometry, logs exactly one per-feature skip
message per candidate, and repeating the fetch with the (unchanged) resulting
reference set again adds nothing. -/
theorem claim_C9_idempotent_fetch (feats : List Candidate)
    (ex : List (List Char)) (xform : Nat → XformRes) (sinkOk : List Char → Bool)
    (h : ∀ f ∈ feats, f.ref ∈ ex) :
    (get_particella_wfs true feats ex xform sinkOk).added = [] ∧
    (get_particella_wfs true feats ex xform sinkOk).success = true ∧
    (get_particella_wfs true feats ex xform sinkOk).lastGeom = none ∧
    (get_particella_wfs true feats ex xform sinkOk).msgs =
      feats.map (fun f => .infoAlreadyPresent f.ref) ∧
    (get_particella_wfs true feats
        (ex ++ (get_particella_wfs true feats ex xform sinkOk).added.map
          (fun f => f.ref)) xform sinkOk).added = [] := by
  have key := foldl_processFeat_all_existing xform sinkOk feats ⟨ex, [], none, []⟩
    (by simpa using h)
  have hres : get_particella_wfs true feats ex xform sinkOk =
      ⟨true, none, [],
        feats.map (fun f => .infoAlreadyPresent f.ref)⟩ := by
    unfold get_particella_wfs
    rw [if_pos rfl, key]
    simp
  refine ⟨by rw [hres], by rw [hres], by rw [hres], by rw [hres], ?_⟩
  rw [hres]
  simp only [List.map_nil, List.append_nil]
  rw [hres]

theorem claim_C9_witness :
    (get_particella_wfs true [⟨['R'], true, 1⟩] [['R']]
      (fun _ => XformRes.transformed 0 5) (fun _ => true)).added = [] := by
  have h := claim_C9_idempotent_fetch [⟨['R'], true, 1⟩] [['R']]
    (fun _ => XformRes.transformed 0 5) (fun _ => true) (by decide)
  exact h.1

/-- C8: a candidate with a valid geometry whose reprojection fails (nonzero
return code or exception) is still handed to the sink with area zero, a
transform warning is emitted, and a fetch call on a valid layer reports
success whatever the transform oracle does: a reprojection failure never
aborts the fetch call. -/
theorem claim_C8_area_fallback (xform : Nat → XformRes)
    (sinkOk : List Char → Bool) (st : FetchSt) (feat : Candidate)
    (h1 : feat.ref ∉ st.existing) (h2 : feat.geomValid = true)
    (h3 : xformFailed (xform feat.geomId) = true)
    (h4 : sinkOk feat.ref = true) :
    (processFeat xform sinkOk st feat).added =
      st.added ++ [⟨feat.ref, (decomposeRef feat.ref).1,
        (decomposeRef feat.ref).2.1, (decomposeRef feat.ref).2.2.1,
        (decomposeRef feat.ref).2.2.2, 0, feat.geomId⟩] ∧
    (processFeat xform sinkOk st feat).msgs =
      st.msgs ++ [.warnTransform feat.ref] ∧
    (∀ (feats : List Candidate) (ex : List (List Char))
        (xf : Nat → XformRes) (sk : List Char → Bool),
      (get_particella_wfs true feats ex xf sk).success = true) := by
  have harea : (match xform feat.geomId with
      | .transformed rc a => if rc == 0 then a else 0
      | .exn => (0 : ℚ)) = (0 : ℚ) := by
    cases hx : xform feat.geomId with
    | transformed rc a =>
      unfold xformFailed at h3
      rw [hx] at h3
      simp only [bne_iff_ne, ne_eq, decide_eq_true_eq] at h3
      simp [h3]
    | exn => rfl
  have hng : ¬((!feat.geomValid) = true) := by
    rw [h2]
    simp
  have hstep : processFeat xform sinkOk st feat =
      { existing := st.existing ++ [feat.ref],
        added := st.added ++ [⟨feat.ref, (decomposeRef feat.ref).1,
          (decomposeRef feat.ref).2.1, (decomposeRef feat.ref).2.2.1,
          (decomposeRef feat.ref).2.2.2, 0, feat.geomId⟩],
        lastGeom := some feat.geomId,
        msgs := st.msgs ++ [.warnTransform feat.ref] } := by
    unfold processFeat
    rw [if_neg h1, if_neg hng]
    dsimp only
    rw [harea, if_pos h3, if_pos h4]
  refine ⟨by rw [hstep], by rw [hstep], ?_⟩
  intro feats ex xf sk
  unfold get_particella_wfs
  rw [if_pos rfl]

theorem claim_C8_witness :
    (processFeat (fun _ => XformRes.exn) (fun _ => true)
        ⟨[], [], none, []⟩ ⟨['R'], true, 1⟩).added =
      [⟨['R'], [], [], [], [], 0, 1⟩] ∧
    (processFeat (fun _ => XformRes.exn) (fun _ => true)
        ⟨[], [], none, []⟩ ⟨['R'], true, 1⟩).msgs =
      [Msg.warnTransform ['R']] := by
  have h := claim_C8_area_fallback (fun _ => XformRes.exn) (fun _ => true)
    ⟨[], [], none, []⟩ ⟨['R'], true, 1⟩ (by decide) rfl rfl rfl
  exact ⟨h.1.trans (by decide), h.2.1.trans (by decide)⟩

theorem foldl_processFeat_nodup (xform : Nat → XformRes)
    (sinkOk : List Char → Bool) (ex : List (List Char)) :
    ∀ (feats : List Candidate) (st : FetchSt),
      ((st.added.map (fun f => f.ref)).Nodup ∧
       (∀ f ∈ st.added, f.ref ∈ st.existing) ∧
       (∀ r ∈ ex, r ∈ st.existing) ∧
       (∀ f ∈ st.added, f.ref ∉ ex)) →
      (((feats.foldl (processFeat xform sinkOk) st).added.map
          (fun f => f.ref)).Nodup ∧
       (∀ f ∈ (feats.foldl (processFeat xform sinkOk) st).added,
          f.ref ∈ (feats.foldl (processFeat xform sinkOk) st).existing) ∧
       (∀ r ∈ ex, r ∈ (feats.foldl (processFeat xform sinkOk) st).existing) ∧
       (∀ f ∈ (feats.foldl (processFeat xform sinkOk) st).added,
          f.ref ∉ ex)) := by
  intro feats
  induction feats with
  | nil => intro st h; simpa using h
  | cons f fs ih =>
    intro st h
    obtain ⟨hnd, hsub, hex, hnex⟩ := h
    simp only [List.foldl_cons]
    apply ih
    unfold processFeat
    split
    · exact ⟨hnd, hsub, hex, hnex⟩
    · split
      · exact ⟨hnd, hsub, hex, hnex⟩
      · rename_i hnotin hvalid
        dsimp only
        split
        · refine ⟨?_, ?_, ?_, ?_⟩
          · simp only [List.map_append, List.map_cons, List.map_nil]
            rw [List.nodup_append]
            refine ⟨hnd, List.nodup_singleton _, ?_⟩
            intro a ha hb
            simp only [List.mem_singleton] at hb
            subst hb
            rcases List.mem_map.1 ha with ⟨g, hg, hge⟩
            exact hnotin (hge ▸ hsub g hg)
          · intro g hg
            rcases List.mem_append.1 hg with h1 | h1
            · exact List.mem_append_left _ (hsub g h1)
            · simp only [List.mem_singleton] at h1
              subst h1
              exact List.mem_append_right _ (by simp)
          · intro r hr
            exact List.mem_append_left _ (hex r hr)
          · intro g hg
            rcases List.mem_append.1 hg with h1 | h1
            · exact hnex g h1
            · simp only [List.mem_singleton] at h1
              subst h1
              intro hra
              exact hnotin (hex _ hra)
        · exact ⟨hnd, hsub, hex, hnex⟩

theorem get_particella_added_nodup (lv : Bool) (feats : List Candidate)
    (ex : List (List Char)) (xform : Nat → XformRes)
    (sinkOk : List Char → Bool) :
    (((get_particella_wfs lv feats ex xform sinkOk).added.map
        (fun f => f.ref)).Nodup ∧
     (∀ f ∈ (get_particella_wfs lv feats ex xform sinkOk).added,
        f.ref ∉ ex)) := by
  unfold get_particella_wfs
  split
  · have h := foldl_processFeat_nodup xform sinkOk ex feats ⟨ex, [], none, []⟩
      (by simp)
    exact ⟨h.1, h.2.2.2⟩
  · simp

theorem seedRun_nodup_inputLayer (orc : RunOracle) :
    ∀ (cs : List (ℚ × ℚ)) (sink : List OutFeature),
      (sink.map (fun f => f.ref)).Nodup →
      (((seedRun orc true sink cs).2.map (fun f => f.ref)).Nodup) := by
  intro cs
  induction cs with
  | nil => intro sink h; simpa [seedRun] using h
  | cons c cs2 ih =>
    intro sink h
    simp only [seedRun]
    apply ih
    have hr := get_particella_added_nodup (orc.layerValid c) (orc.svc c)
      (existingFor true sink) orc.xform orc.sinkOk
    simp only [List.map_append]
    rw [List.nodup_append]
    refine ⟨h, hr.1, ?_⟩
    intro a ha hb
    rcases List.mem_map.1 hb with ⟨g, hg, hge⟩
    have hnot := hr.2 g hg
    apply hnot
    rw [hge]
    simpa [existingFor] using ha

theorem idStep_nodup_inputLayer (orc : RunOracle) (sink : List OutFeature)
    (pid : List Char) (h : (sink.map (fun f => f.ref)).Nodup) :
    (((idStep orc true sink pid).2.map (fun f => f.ref)).Nodup) := by
  unfold idStep
  cases orc.coords pid with
  | none => simpa using h
  | some cs =>
    dsimp only
    by_cases hemp : cs.isEmpty = true
    · rw [if_pos hemp]
      simpa using h
    · rw [if_neg hemp]
      exact seedRun_nodup_inputLayer orc cs sink h

theorem runAgg_nodup_inputLayer (orc : RunOracle) (cancel : Nat → Bool) :
    ∀ (ids : List (List Char)) (i : Nat) (sink : List OutFeature),
      (sink.map (fun f => f.ref)).Nodup →
      (((runAgg orc true cancel i sink ids).2.2.map (fun f => f.ref)).Nodup) := by
  intro ids
  induction ids with
  | nil => intro i sink h; simpa [runAgg] using h
  | cons pid rest ih =>
    intro i sink h
    simp only [runAgg]
    by_cases hcan : cancel i = true
    · rw [if_pos hcan]
      simpa using h
    · rw [if_neg hcan]
      exact ih (i + 1) _ (idStep_nodup_inputLayer orc sink pid h)

/-- C1 counterexample: a run writing to a fresh output sink, with one parcel
id whose dataset lookup yields two seed coordinates and a service answering
both seeds with the same reference: because the source rebuilds existing
references from the input layer only, each fetch call starts from an empty
set and the same NATIONALCADASTRALREFERENCE is added to the sink twice
within one run. -/
theorem claim_C1_counterexample :
    ((runAgg
        ⟨fun _ => some [((0 : ℚ), (0 : ℚ)), ((1 : ℚ), (1 : ℚ))],
         fun _ => true,
         fun _ => [⟨['R'], true, 7⟩],
         fun _ => XformRes.transformed 0 5,
         fun _ => true⟩
        false (fun _ => false) 0 [] [['1']]).2.2.map (fun f => f.ref)) =
      [['R'], ['R']] ∧
    ¬ (((runAgg
        ⟨fun _ => some [((0 : ℚ), (0 : ℚ)), ((1 : ℚ), (1 : ℚ))],
         fun _ => true,
         fun _ => [⟨['R'], true, 7⟩],
         fun _ => XformRes.transformed 0 5,
         fun _ => true⟩
        false (fun _ => false) 0 [] [['1']]).2.2.map (fun f => f.ref)).Nodup) := by
  constructor
  · rfl
  · intro h
    rw [show ((runAgg
        ⟨fun _ => some [((0 : ℚ), (0 : ℚ)), ((1 : ℚ), (1 : ℚ))],
         fun _ => true,
         fun _ => [⟨['R'], true, 7⟩],
         fun _ => XformRes.transformed 0 5,
         fun _ => true⟩
        false (fun _ => false) 0 [] [['1']]).2.2.map (fun f => f.ref)) =
      [['R'], ['R']] from rfl] at h
    simp at h

/-- C1 amended: within every single fetch call the added features carry
pairwise distinct references, none of them already in the preexisting set;
and a whole run appending to an existing layer, where the preexisting set is
rebuilt from the current layer contents at every call, keeps the sink free
of duplicate references; with a fresh sink the preexisting set restarts
empty at every call, so duplicates across seeds are possible, as the
counterexample shows. -/
theorem claim_C1_uniqueness (lv : Bool) (feats : List Candidate)
    (ex : List (List Char)) (xform : Nat → XformRes)
    (sinkOk : List Char → Bool) :
    (((get_particella_wfs lv feats ex xform sinkOk).added.map
        (fun f => f.ref)).Nodup ∧
     (∀ f ∈ (get_particella_wfs lv feats ex xform sinkOk).added,
        f.ref ∉ ex)) ∧
    (∀ (orc : RunOracle) (cancel : Nat → Bool) (ids : List (List Char))
        (i : Nat) (sink0 : List OutFeature),
      (sink0.map (fun f => f.ref)).Nodup →
      (((runAgg orc true cancel i sink0 ids).2.2.map
          (fun f => f.ref)).Nodup)) :=
  ⟨get_particella_added_nodup lv feats ex xform sinkOk,
   fun orc cancel ids i sink0 h => runAgg_nodup_inputLayer orc cancel ids i sink0 h⟩

theorem claim_C1_witness :
    ((runAgg
        ⟨fun _ => some [((0 : ℚ), (0 : ℚ)), ((1 : ℚ), (1 : ℚ))],
         fun _ => true,
         fun _ => [⟨['R'], true, 7⟩],
         fun _ => XformRes.transformed 0 5,
         fun _ => true⟩
        true (fun _ => false) 0 [] [['1']]).2.2.map (fun f => f.ref)).Nodup := by
  have h := (claim_C1_uniqueness true [] [] (fun _ => XformRes.exn)
      (fun _ => true)).2
    ⟨fun _ => some [((0 : ℚ), (0 : ℚ)), ((1 : ℚ), (1 : ℚ))],
     fun _ => true,
     fun _ => [⟨['R'], true, 7⟩],
     fun _ => XformRes.transformed 0 5,
     fun _ => true⟩
    (fun _ => false) [['1']] 0 [] (by decide)
  exact h

theorem seedRun_lastGeom_iff (orc : RunOracle) (mode : Bool) :
    ∀ (cs : List (ℚ × ℚ)) (sink : List OutFeature) (fr : FetchRes),
      fr ∈ (seedRun orc mode sink cs).1 →
      (fr.lastGeom.isSome ↔ fr.added ≠ []) := by
  intro cs
  induction cs with
  | nil =>
    intro sink fr h
    simp [seedRun] at h
  | cons c cs2 ih =>
    intro sink fr h
    simp only [seedRun] at h
    rcases List.mem_cons.1 h with h1 | h1
    · subst h1
      exact get_particella_wfs_lastGeom_iff _ _ _ _ _
    · exact ih _ fr h1

theorem idStep_found_iff (orc : RunOracle) (mode : Bool)
    (sink : List OutFeature) (pid : List Char) :
    ((idStep orc mode sink pid).1 = true ↔
      ∃ cs, orc.coords pid = some cs ∧
        ∃ fr ∈ (seedRun orc mode sink cs).1,
          fr.success = true ∧ fr.added ≠ []) := by
  unfold idStep
  cases hco : orc.coords pid with
  | none => simp
  | some cs =>
    dsimp only
    by_cases hemp : cs.isEmpty = true
    · rw [if_pos hemp]
      have hcs : cs = [] := by
        cases cs with
        | nil => rfl
        | cons a as => simp at hemp
      subst hcs
      simp [seedRun]
    · rw [if_neg hemp]
      simp only [List.any_eq_true, Bool.and_eq_true]
      constructor
      · rintro ⟨fr, hfr, hsucc, hlast⟩
        exact ⟨cs, rfl, fr, hfr, hsucc,
          (seedRun_lastGeom_iff orc mode cs sink fr hfr).1 hlast⟩
      · rintro ⟨cs2, hcs2, fr, hfr, hsucc, hadd⟩
        have hce : cs = cs2 := by
          injection hcs2
        subst hce
        exact ⟨fr, hfr, hsucc,
          (seedRun_lastGeom_iff orc mode cs sink fr hfr).2 hadd⟩

theorem runAgg_trace (orc : RunOracle) (mode : Bool) (cancel : Nat → Bool)
    (hc : ∀ n, cancel n = false) :
    ∀ (ids : List (List Char)) (i : Nat) (sink : List OutFeature),
      (runAgg orc mode cancel i sink ids).1 =
        (foundTrace orc mode sink ids).count true ∧
      (runAgg orc mode cancel i sink ids).2.1 =
        ((ids.zip (foundTrace orc mode sink ids)).filter
          (fun p => !p.2)).map (fun p => p.1) ∧
      (runAgg orc mode cancel i sink ids).1 +
        (runAgg orc mode cancel i sink ids).2.1.length = ids.length := by
  intro ids
  induction ids with
  | nil =>
    intro i sink
    simp [runAgg, foundTrace]
  | cons pid rest ih =>
    intro i sink
    obtain ⟨ih1, ih2, ih3⟩ := ih (i + 1) (idStep orc mode sink pid).2
    simp only [runAgg, foundTrace, hc i, if_false, Bool.false_eq_true]
    cases hst : (idStep orc mode sink pid).1 with
    | true =>
      simp only [eq_self_iff_true, if_true, List.zip_cons_cons,
        List.count_cons, List.filter_cons]
      refine ⟨?_, ?_, ?_⟩
      · rw [ih1]; simp
      · rw [ih2]; simp
      · simp only [List.length_cons]
        omega
    | false =>
      simp only [Bool.false_eq_true, if_false, List.zip_cons_cons,
        List.count_cons, List.filter_cons]
      refine ⟨?_, ?_, ?_⟩
      · rw [ih1]; simp
      · rw [ih2]; simp
      · simp only [List.length_cons]
        omega

/-- C4: in a run that is never cancelled, the found counter equals the
number of per-id found flags, the not-found list is exactly the requested
ids whose flag is false, in request order and with multiplicity, so found
count plus not-found length equals the number of requested ids; and an id's
flag is true exactly when its dataset lookup returned a nonempty seed list
and some seed fetch succeeded with at least one added feature. -/
theorem claim_C4_partition (orc : RunOracle) (mode : Bool) (cancel : Nat → Bool)
    (sink0 : List OutFeature) (ids : List (List Char)) (i : Nat)
    (hc : ∀ n, cancel n = false) :
    (runAgg orc mode cancel i sink0 ids).1 =
      (foundTrace orc mode sink0 ids).count true ∧
    (runAgg orc mode cancel i sink0 ids).2.1 =
      ((ids.zip (foundTrace orc mode sink0 ids)).filter
        (fun p => !p.2)).map (fun p => p.1) ∧
    (runAgg orc mode cancel i sink0 ids).1 +
      (runAgg orc mode cancel i sink0 ids).2.1.length = ids.length ∧
    (∀ (sink : List OutFeature) (pid : List Char),
      ((idStep orc mode sink pid).1 = true ↔
        ∃ cs, orc.coords pid = some cs ∧
          ∃ fr ∈ (seedRun orc mode sink cs).1,
            fr.success = true ∧ fr.added ≠ [])) := by
  obtain ⟨h1, h2, h3⟩ := runAgg_trace orc mode cancel hc ids i sink0
  exact ⟨h1, h2, h3, fun sink pid => idStep_found_iff orc mode sink pid⟩

theorem claim_C4_witness :
    (runAgg
        ⟨fun pid => if pid = ['1'] ∨ pid = ['2'] ∨ pid = ['3']
            then some [((0 : ℚ), (0 : ℚ))] else none,
         fun _ => true, fun _ => [⟨['A'], true, 0⟩],
         fun _ => XformRes.transformed 0 0, fun _ => true⟩
        false (fun _ => false) 0 []
        ((List.range 25).map (fun n => natChars (n + 1)))).1 = 3 ∧
    (runAgg
        ⟨fun pid => if pid = ['1'] ∨ pid = ['2'] ∨ pid = ['3']
            then some [((0 : ℚ), (0 : ℚ))] else none,
         fun _ => true, fun _ => [⟨['A'], true, 0⟩],
         fun _ => XformRes.transformed 0 0, fun _ => true⟩
        false (fun _ => false) 0 []
        ((List.range 25).map (fun n => natChars (n + 1)))).2.1.length = 22 := by
  have h := claim_C4_partition
    ⟨fun pid => if pid = ['1'] ∨ pid = ['2'] ∨ pid = ['3']
        then some [((0 : ℚ), (0 : ℚ))] else none,
     fun _ => true, fun _ => [⟨['A'], true, 0⟩],
     fun _ => XformRes.transformed 0 0, fun _ => true⟩
    false (fun _ => false) []
    ((List.range 25).map (fun n => natChars (n + 1))) 0 (fun _ => rfl)
  have hcount : List.count true (foundTrace
      ⟨fun pid => if pid = ['1'] ∨ pid = ['2'] ∨ pid = ['3']
          then some [((0 : ℚ), (0 : ℚ))] else none,
       fun _ => true, fun _ => [⟨['A'], true, 0⟩],
       fun _ => XformRes.transformed 0 0, fun _ => true⟩
      false [] ((List.range 25).map (fun n => natChars (n + 1)))) = 3 := by
    decide
  have h1 := h.1.trans hcount
  have h3 := h.2.2.1
  have hlen : ((List.range 25).map (fun n => natChars (n + 1))).length = 25 := by
    decide
  exact ⟨h1, by omega⟩
